import Mathlib

/-!
Shallow embedding of the Khmer-Transliteration inference core
(`backend/utils/model_loader.py` and `backend/services/translation.py`).

Conventions of the embedding:
* Python strings are `List Char`; only ASCII behaviour of `lower` / `strip` /
  `\s` is relevant to this system (inputs are filtered to `[a-z\s]`), so the
  whitespace class is the six ASCII whitespace characters of the regex `\s`.
* Python floats are embedded as `ℚ`; `round(x, 2)` is embedded as `round2`.
* numpy `int32` vocabulary indices are embedded as unbounded `Int`/`Nat`;
  every index in this system is a small non-negative vocabulary index
  (spec section 3: "small non-negative integer indices").
* fallible Python code (code that may raise inside the engine's `try` block)
  is embedded in `Option`: `none` is a raised exception.
* the Keras model is opaque: it is a field of the environment.  Its numpy
  output `preds` of shape `(1, T, V)` is embedded as its only consumed batch
  row `preds[0] : List (List ℚ)` (time-major), so `preds.shape[1] = T` is the
  length of that list.
-/

/-- The six ASCII whitespace characters matched by the regex class `\s`
(and stripped by `str.strip`) — `' '`, `'\t'`, `'\n'`, `'\r'`, `'\x0b'`,
`'\x0c'`. -/
def pyIsSpace (c : Char) : Bool :=
  c == ' ' || c == '\t' || c == '\n' || c == '\r' || c == '\x0b' || c == '\x0c'

/-- Python `str.strip()`: drop whitespace from both ends. -/
def pyStrip (s : List Char) : List Char :=
  ((s.dropWhile pyIsSpace).reverse.dropWhile pyIsSpace).reverse

/-- `ModelLoader.clean_text` (model_loader.py lines 92-97):
`text.lower().strip()`, then for non-Khmer text `re.sub(r'[^a-z\s]', '', text)`. -/
def clean_text (text : List Char) (is_khmer : Bool) : List Char :=
  let t := pyStrip (text.map Char.toLower)
  if is_khmer then t
  else t.filter (fun c => (decide ('a' ≤ c) && decide (c ≤ 'z')) || pyIsSpace c)

/-- The `padding=` argument of `ModelLoader._pad_sequences`:
`post` is `'post'` (back alignment), `pre` is anything else (front alignment). -/
inductive Align where
  | post : Align
  | pre : Align
deriving DecidableEq

/-- The `'post'` branch of `_pad_sequences` for one row: keep the first
`maxlen` elements when too long, otherwise zero-fill at the tail. -/
def padPost (seq : List Int) (maxlen : Nat) : List Int :=
  if seq.length > maxlen then seq.take maxlen
  else seq ++ List.replicate (maxlen - seq.length) 0

/-- One row of `ModelLoader._pad_sequences` (model_loader.py lines 76-90),
writing into a zero row of width `maxlen`.  `none` embeds the numpy
`ValueError` raised by a broadcast mismatch: with front alignment the source
uses the slices `seq[-maxlen:]` and `padded[i, -len(seq):]`, and Python's
`-0` is `0`, so the slice degenerates to the whole row; assigning a row of
the wrong width then raises.  Concretely `padded[i, -0:] = []` raises for
`maxlen > 0`, and `padded[i] = seq[-0:]` raises for `maxlen = 0` and a
non-empty `seq`.  Back alignment never raises. -/
def padRow (seq : List Int) (maxlen : Nat) (align : Align) : Option (List Int) :=
  match align with
  | Align.post => some (padPost seq maxlen)
  | Align.pre =>
    if seq.length > maxlen then
      if maxlen = 0 then none
      else some (seq.drop (seq.length - maxlen))
    else
      if seq.length = 0 then
        if maxlen = 0 then some [] else none
      else some (List.replicate (maxlen - seq.length) 0 ++ seq)

/-- The row loop of `_pad_sequences`: pad every row; any raised
`ValueError` aborts the whole call. -/
def pad_rows (maxlen : Nat) (align : Align) : List (List Int) → Option (List (List Int))
  | [] => some []
  | s :: rest =>
    match padRow s maxlen align, pad_rows maxlen align rest with
    | some r, some rs => some (r :: rs)
    | _, _ => none

/-- `ModelLoader._pad_sequences(sequences, maxlen, padding)`
(model_loader.py lines 76-90). -/
def pad_sequences (sequences : List (List Int)) (maxlen : Nat) (align : Align) :
    Option (List (List Int)) :=
  pad_rows maxlen align sequences

/-- Closed form of one padded row, defined the way the spec words it:
back alignment keeps the first `maxlen` elements and zero-fills the tail,
front alignment keeps the last `maxlen` elements and zero-fills the head. -/
def padRowSpec (s : List Int) (m : Nat) (a : Align) : List Int :=
  match a with
  | Align.post => s.take m ++ List.replicate (m - s.length) 0
  | Align.pre => List.replicate (m - s.length) 0 ++ s.drop (s.length - m)

/-- The serving-time environment of an initialized `ModelLoader`: the two
loaded tokenizers, the two fixed maximum lengths, and the loaded Keras model.
`texts_to_sequences cleaned` embeds `eng_tokenizer.texts_to_sequences([cleaned])`.
`model enc dec` embeds `self.model.predict([enc_padded, dec_padded])[0]`
(time-major probability rows); `none` is a raised forward-pass exception. -/
structure Env where
  texts_to_sequences : List Char → List (List Nat)
  eng_word_index : Char → Option Nat
  khm_word_index : Char → Option Nat
  khm_index_word : Nat → Option (List Char)
  max_eng_len : Nat
  max_khm_len : Nat
  model : List (List Int) → List (List Int) → Option (List (List ℚ))

/-- The character-by-character fallback encoder (model_loader.py lines 117-125):
a character in `eng_tokenizer.word_index` maps to its index, a literal space
maps to `1`, anything else maps to `0`. -/
def charEncode (env : Env) (c : Char) : Nat :=
  match env.eng_word_index c with
  | some i => i
  | none => if c = ' ' then 1 else 0

/-- The encode phase before padding (model_loader.py lines 113-126):
word-level `texts_to_sequences` first; if that yields no sequence or an empty
first sequence, fall back to character-by-character encoding of `cleaned`. -/
def encodePhase (env : Env) (cleaned : List Char) : List (List Nat) :=
  let enc_seq := env.texts_to_sequences cleaned
  if enc_seq.isEmpty || (enc_seq.headD []).isEmpty then [cleaned.map (charEncode env)]
  else enc_seq

/-- The padded encoder tensor fed to every forward pass of a decode of `w`
(model_loader.py line 128): back-aligned padding to `max_eng_len`. -/
def encPadded (env : Env) (w : List Char) : List (List Int) :=
  (encodePhase env (clean_text w false)).map
    (fun s => padPost (s.map Int.ofNat) env.max_eng_len)

/-- Tail of `np.argmax`: index of the first maximum, scanning with the best
value, best index and current index. -/
def argmaxGo : List ℚ → ℚ → Nat → Nat → Nat
  | [], _, bi, _ => bi
  | x :: xs, bv, bi, i => if bv < x then argmaxGo xs x i (i + 1) else argmaxGo xs bv bi (i + 1)

/-- `int(np.argmax(probs))`: first index of the maximum; `np.argmax` of an
empty array raises (`none`). -/
def argmaxIdx : List ℚ → Option Nat
  | [] => none
  | x :: xs => some (argmaxGo xs x 0 1)

/-- `np.mean`: arithmetic mean of a list of rationals (`0` on `[]`, which the
source never evaluates thanks to its `if confidences` guard). -/
def npMean (l : List ℚ) : ℚ := l.sum / (l.length : ℚ)

/-- Python `round(x, 2)`: round to two decimal places. -/
def round2 (q : ℚ) : ℚ := (round (q * 100) : ℤ) / 100

/-- The autoregressive greedy decode loop (model_loader.py lines 141-157),
fuel-counted: fuel `max_khm_len + 10` is `for t in range(max_khm_len + 10)`,
and `fuel = 0` inside a step is `t == max_khm_len + 9`.  Each step pads the
decoder sequence to `max_khm_len + 1` (back), runs one forward pass, breaks
normally when the read time index `len(decoder_seq) - 1` is out of bounds for
the model output, selects the argmax token and its probability, appends both,
and breaks when the token is the end token or the fuel is spent.  `none` is a
raised exception (forward-pass failure or argmax of an empty row). -/
def decodeLoop (env : Env) (enc_padded : List (List Int)) (endIdx : Nat) :
    Nat → List Nat → List ℚ → Option (List Nat × List ℚ)
  | 0, seq, confs => some (seq, confs)
  | fuel + 1, seq, confs =>
    match pad_sequences [seq.map Int.ofNat] (env.max_khm_len + 1) Align.post with
    | none => none
    | some dec_padded =>
      match env.model enc_padded dec_padded with
      | none => none
      | some preds =>
        if seq.length - 1 < preds.length then
          match argmaxIdx (preds.getD (seq.length - 1) []) with
          | none => none
          | some nextTok =>
            let conf := (preds.getD (seq.length - 1) []).getD nextTok 0
            if nextTok = endIdx ∨ fuel = 0 then some (seq ++ [nextTok], confs ++ [conf])
            else decodeLoop env enc_padded endIdx fuel (seq ++ [nextTok]) (confs ++ [conf])
        else some (seq, confs)

/-- The decode loop as the engine invokes it: fuel `max_khm_len + 10`,
decoder sequence initialized to `[start_idx]`, no confidences yet. -/
def decodeLoopCall (env : Env) (enc_padded : List (List Int)) (startIdx endIdx : Nat) :
    Option (List Nat × List ℚ) :=
  decodeLoop env enc_padded endIdx (env.max_khm_len + 10) [startIdx] []

/-- The output-construction loop (model_loader.py lines 160-165) applied to
the decoder sequence with its start token already dropped: collect
`khm_tokenizer.index_word.get(idx, '')` per index, breaking at the end token. -/
def collectChars (env : Env) (endIdx : Nat) : List Nat → List (List Char)
  | [] => []
  | idx :: rest =>
    if idx = endIdx then []
    else ((env.khm_index_word idx).getD []) :: collectChars env endIdx rest

/-- The join with empty separator of the collected characters of `decoder_seq[1:]`
(model_loader.py lines 159-167). -/
def decodeSeq (env : Env) (endIdx : Nat) (seq : List Nat) : List Char :=
  (collectChars env endIdx (seq.drop 1)).flatten

/-- The body of the `try` block of `predict_khmer_with_confidence`
(model_loader.py lines 111-175) on a non-empty cleaned input: `none` is an
exception escaping to the `except` handler; `some` is a normal `return`. -/
def predictBody (env : Env) (eng_input cleaned : List Char) : Option (List Char × ℚ) :=
  let enc_seq := encodePhase env cleaned
  match pad_sequences (enc_seq.map (fun s => s.map Int.ofNat)) env.max_eng_len Align.post with
  | none => none
  | some enc_padded =>
    match env.khm_word_index '\t', env.khm_word_index '\n' with
    | some startIdx, some endIdx =>
      match decodeLoop env enc_padded endIdx (env.max_khm_len + 10) [startIdx] [] with
      | none => none
      | some (seq, confs) =>
        let result := decodeSeq env endIdx seq
        let avg : ℚ := if confs.length ≠ 0 then npMean confs * 100 else 0
        if result.all pyIsSpace then some ('[' :: eng_input ++ [']'], 0)
        else some (result, round2 avg)
    | _, _ => some ('[' :: eng_input ++ [']'], 0)

/-- `ModelLoader.predict_khmer_with_confidence(eng_input)` (model_loader.py
lines 99-179) of an initialized loader: empty-after-cleaning input
short-circuits to `("", 0.0)`; any exception inside the `try` block is caught
and converted to `("[" + eng_input + "]", 0.0)`. -/
def predict_khmer_with_confidence (env : Env) (eng_input : List Char) : List Char × ℚ :=
  let cleaned := clean_text eng_input false
  if cleaned.length = 0 then ([], 0)
  else
    match predictBody env eng_input cleaned with
    | some r => r
    | none => ('[' :: eng_input ++ [']'], 0)

/-- `TranslationService.translate_single_word` (translation.py lines 17-26):
the `try` wrapper around the engine; since the embedded engine is total, the
`except` branch is unreachable and the wrapper is the engine itself. -/
def translate_single_word (env : Env) (word : List Char) : List Char × ℚ :=
  predict_khmer_with_confidence env word

/-- Python `str.split()` with no argument: maximal runs of non-whitespace. -/
def pyWordsAux : List Char → List Char → List (List Char)
  | [], acc => if acc.isEmpty then [] else [acc.reverse]
  | c :: cs, acc =>
    if pyIsSpace c then
      if acc.isEmpty then pyWordsAux cs [] else acc.reverse :: pyWordsAux cs []
    else pyWordsAux cs (c :: acc)

/-- `text.split()` (translation.py line 35). -/
def pyWords (text : List Char) : List (List Char) := pyWordsAux text []

/-- The result dictionary of `TranslationService.translate_text`. -/
structure TranslateResult where
  input_text : List Char
  translation : List Char
  word_translations : List (List Char × List Char × ℚ)
  average_confidence : ℚ
  word_count : Nat
deriving DecidableEq

/-- `TranslationService.translate_text(text)` (translation.py lines 28-73),
parametrized by the per-word engine: split on whitespace; no words yields the
empty zero result; otherwise translate each word, join the translations with
no separator, and average the confidences, rounded to 2 decimals. -/
def translate_text (engine : List Char → List Char × ℚ) (text : List Char) :
    TranslateResult :=
  let words := pyWords text
  if words.isEmpty then
    { input_text := text, translation := [], word_translations := [],
      average_confidence := 0, word_count := 0 }
  else
    let results := words.map (fun w => (w, (engine w).1, (engine w).2))
    let total : ℚ := (results.map (fun r => r.2.2)).sum
    let avg : ℚ := if results.isEmpty then 0 else total / (results.length : ℚ)
    { input_text := text,
      translation := (results.map (fun r => r.2.1)).flatten,
      word_translations := results,
      average_confidence := round2 avg,
      word_count := words.length }

/-- A small concrete environment used by the evaluation theorems: start token
`'\t' ↦ 1`, end token `'\n' ↦ 2`, one content index `3 ↦ "x"`, and a model
whose single probability row always selects token `2` with probability `9/10`. -/
def envW : Env where
  texts_to_sequences := fun _ => [[3]]
  eng_word_index := fun _ => none
  khm_word_index := fun c => if c = '\t' then some 1 else if c = '\n' then some 2 else none
  khm_index_word := fun i => if i = 3 then some ['x'] else none
  max_eng_len := 1
  max_khm_len := 0
  model := fun _ _ => some [[0, 0, 9/10]]

/-- `envW` with a target vocabulary that lacks the start and end tokens. -/
def envNoTok : Env where
  texts_to_sequences := fun _ => [[3]]
  eng_word_index := fun _ => none
  khm_word_index := fun _ => none
  khm_index_word := fun i => if i = 3 then some ['x'] else none
  max_eng_len := 1
  max_khm_len := 0
  model := fun _ _ => some [[0, 0, 9/10]]

/-- `envW` with a model whose forward pass always raises. -/
def envFailModel : Env where
  texts_to_sequences := fun _ => [[3]]
  eng_word_index := fun _ => none
  khm_word_index := fun c => if c = '\t' then some 1 else if c = '\n' then some 2 else none
  khm_index_word := fun i => if i = 3 then some ['x'] else none
  max_eng_len := 1
  max_khm_len := 0
  model := fun _ _ => none

/-- A model that decodes "x" then ends: at time 0 pick token `3` (prob `4/5`),
at time 1 pick the end token `2` (prob `3/5`). -/
def envX : Env where
  texts_to_sequences := fun _ => [[3]]
  eng_word_index := fun _ => none
  khm_word_index := fun c => if c = '\t' then some 1 else if c = '\n' then some 2 else none
  khm_index_word := fun i => if i = 3 then some ['x'] else none
  max_eng_len := 1
  max_khm_len := 2
  model := fun _ _ => some [[0, 0, 1/5, 4/5], [0, 0, 3/5, 1/5]]

theorem padPost_length (s : List Int) (m : Nat) : (padPost s m).length = m := by
  unfold padPost
  split <;> simp <;> omega

theorem pad_rows_post (m : Nat) :
    ∀ seqs : List (List Int),
      pad_rows m Align.post seqs = some (seqs.map (fun s => padPost s m))
  | [] => rfl
  | s :: rest => by
    simp [pad_rows, padRow, pad_rows_post m rest]

theorem padRow_length {s : List Int} {m : Nat} {a : Align} {r : List Int}
    (h : padRow s m a = some r) : r.length = m := by
  cases a
  · simp only [padRow, Option.some.injEq] at h
    subst h
    exact padPost_length s m
  · simp only [padRow] at h
    split at h
    · split at h
      · cases h
      · simp only [Option.some.injEq] at h
        subst h
        simp only [List.length_drop]
        omega
    · split at h
      · split at h
        · simp only [Option.some.injEq] at h
          subst h
          simp_all
        · cases h
      · simp only [Option.some.injEq] at h
        subst h
        simp only [List.length_append, List.length_replicate]
        omega

theorem padRow_eq_spec {s : List Int} {m : Nat} {a : Align}
    (h : a = Align.post ∨ (s = [] ↔ m = 0)) :
    padRow s m a = some (padRowSpec s m a) := by
  cases a
  · simp only [padRow, padPost, padRowSpec]
    split
    · next hgt =>
      rw [Nat.sub_eq_zero_of_le (by omega), List.replicate_zero, List.append_nil]
    · next hle =>
      rw [List.take_of_length_le (by omega)]
  · have hiff : s = [] ↔ m = 0 := by
      rcases h with h | h
      · cases h
      · exact h
    simp only [padRow, padRowSpec]
    split
    · next hgt =>
      have hm : m ≠ 0 := by
        intro hm0
        have : s = [] := hiff.mpr hm0
        simp [this] at hgt
      have e : m - s.length = 0 := by omega
      rw [if_neg hm, e, List.replicate_zero, List.nil_append]
    · next hle =>
      by_cases h0 : s.length = 0
      · have hs : s = [] := List.length_eq_zero.mp h0
        have hm : m = 0 := hiff.mp hs
        simp [h0, hs, hm]
      · have e : s.length - m = 0 := by omega
        rw [if_neg h0, e, List.drop_zero]

theorem pad_rows_eq_spec {m : Nat} {a : Align} :
    ∀ {seqs : List (List Int)}, (∀ s ∈ seqs, a = Align.post ∨ (s = [] ↔ m = 0)) →
      pad_rows m a seqs = some (seqs.map (fun s => padRowSpec s m a))
  | [], _ => rfl
  | s :: rest, h => by
    have hs := padRow_eq_spec (h s (List.mem_cons_self s rest))
    have hrest := pad_rows_eq_spec (fun x hx => h x (List.mem_cons_of_mem s hx))
    simp only [pad_rows, hs, hrest, List.map_cons]

theorem padRowSpec_length (s : List Int) (m : Nat) (a : Align) :
    (padRowSpec s m a).length = m := by
  cases a <;> simp [padRowSpec] <;> omega

theorem padRow_of_length_eq {s : List Int} {m : Nat} (a : Align) (h : s.length = m) :
    padRow s m a = some s := by
  cases a
  · simp only [padRow, padPost]
    rw [if_neg (by omega)]
    simp [h]
  · simp only [padRow]
    rw [if_neg (by omega)]
    by_cases h0 : s.length = 0
    · rw [if_pos h0]
      have hm : m = 0 := by omega
      have hs : s = [] := List.length_eq_zero.mp h0
      simp [hm, hs]
    · rw [if_neg h0]
      simp [h]

/-- C6 counterexample: with front alignment and a non-degenerate width, the
padding utility does not return a zero-filled row for an empty sequence — the
source's slice assignment `padded[i, -len(seq):] = seq` degenerates to
`padded[i, 0:] = []` (Python's `-0` is `0`) and numpy raises a broadcast
`ValueError`, embedded as `none`. -/
theorem pad_front_empty_raises : pad_sequences [([] : List Int)] 1 Align.pre = none := by
  decide

/-- C6 (amended): for every list of integer sequences, `max_length` and
alignment — except that under front alignment each sequence must be empty
exactly when `max_length` is zero, since otherwise the degenerate numpy `-0`
slice raises — padding returns a `(number_of_sequences, max_length)` array of
integer-zero-filled rows: back alignment keeps the first `max_length`
elements and zero-fills the tail, front alignment keeps the last `max_length`
elements and zero-fills the head; in particular the three concrete examples
of the claim hold. -/
theorem pad_sequences_spec (seqs : List (List Int)) (m : Nat) (a : Align)
    (h : ∀ s ∈ seqs, a = Align.post ∨ (s = [] ↔ m = 0)) :
    ∃ out, pad_sequences seqs m a = some out ∧
      out.length = seqs.length ∧
      (∀ r ∈ out, r.length = m) ∧
      out = seqs.map (fun s => padRowSpec s m a) ∧
      pad_sequences [[1,2,3]] 5 Align.post = some [[1,2,3,0,0]] ∧
      pad_sequences [[1,2,3,4,5,6]] 4 Align.post = some [[1,2,3,4]] ∧
      pad_sequences [[1,2,3]] 5 Align.pre = some [[0,0,1,2,3]] := by
  refine ⟨seqs.map (fun s => padRowSpec s m a), pad_rows_eq_spec h, by simp, ?_,
    rfl, by decide, by decide, by decide⟩
  intro r hr
  obtain ⟨s, _, rfl⟩ := List.mem_map.mp hr
  exact padRowSpec_length s m a

/-- C6 witness: the amended theorem applied to `[[1,2,3]]`, width 5, front
alignment. -/
theorem pad_sequences_spec_witness :
    pad_sequences [[1,2,3]] 5 Align.pre = some [[0,0,1,2,3]] := by
  obtain ⟨out, h1, -, -, h4, -⟩ :=
    pad_sequences_spec [[1,2,3]] 5 Align.pre (by decide)
  rw [h4] at h1
  exact h1.trans (by decide)

/-- C10: a row whose length is exactly `max_length` is padded to itself, and
padding is idempotent, row-wise and for whole batches, for both alignments. -/
theorem pad_idempotent (s : List Int) (m : Nat) (a : Align) :
    (s.length = m → padRow s m a = some s) ∧
    (∀ r, padRow s m a = some r → padRow r m a = some r) ∧
    (∀ seqs out, pad_sequences seqs m a = some out → pad_sequences out m a = some out) := by
  refine ⟨padRow_of_length_eq a, fun r hr => padRow_of_length_eq a (padRow_length hr), ?_⟩
  intro seqs
  induction seqs with
  | nil =>
    intro out h
    simp only [pad_sequences, pad_rows, Option.some.injEq] at h
    subst h
    rfl
  | cons s1 rest ih =>
    intro out h
    simp only [pad_sequences, pad_rows] at h
    split at h
    · next r rs hr hrs =>
      simp only [Option.some.injEq] at h
      subst h
      have hr2 : padRow r m a = some r := padRow_of_length_eq a (padRow_length hr)
      have hrs2 : pad_rows m a rs = some rs := ih rs hrs
      simp only [pad_sequences, pad_rows, hr2, hrs2]
    · cases h

/-- C10 witness: identity on an exact-length row (back), and idempotence on a
front-padded row. -/
theorem pad_idempotent_witness :
    padRow [(1:Int), 2, 3] 3 Align.post = some [1, 2, 3] ∧
    padRow [(0:Int), 0, 1] 3 Align.pre = some [0, 0, 1] :=
  ⟨(pad_idempotent [1, 2, 3] 3 Align.post).1 rfl,
   (pad_idempotent [1] 3 Align.pre).2.1 [0, 0, 1] (by decide)⟩

theorem decodeLoop_some_ext (env : Env) (encP : List (List Int)) (endIdx : Nat) :
    ∀ (fuel : Nat) (seq : List Nat) (confs : List ℚ) (seq2 : List Nat) (confs2 : List ℚ),
      decodeLoop env encP endIdx fuel seq confs = some (seq2, confs2) →
      ∃ ts cs, seq2 = seq ++ ts ∧ confs2 = confs ++ cs ∧ ts.length = cs.length ∧
        cs.length ≤ fuel := by
  intro fuel
  induction fuel with
  | zero =>
    intro seq confs seq2 confs2 h
    simp only [decodeLoop, Option.some.injEq, Prod.mk.injEq] at h
    exact ⟨[], [], by simp [h.1.symm], by simp [h.2.symm], rfl, Nat.le_refl 0⟩
  | succ n ih =>
    intro seq confs seq2 confs2 h
    simp only [decodeLoop] at h
    split at h
    · exact Option.noConfusion h
    · next dec_padded hpad =>
      split at h
      · exact Option.noConfusion h
      · next preds hpreds =>
        split at h
        · split at h
          · exact Option.noConfusion h
          · next nextTok hargmax =>
            split at h
            · simp only [Option.some.injEq, Prod.mk.injEq] at h
              exact ⟨[nextTok], [(preds.getD (seq.length - 1) []).getD nextTok 0],
                h.1.symm, h.2.symm, rfl, by simp⟩
            · obtain ⟨ts, cs, h1, h2, h3, h4⟩ := ih _ _ _ _ h
              exact ⟨nextTok :: ts, (preds.getD (seq.length - 1) []).getD nextTok 0 :: cs,
                by rw [h1, List.append_assoc]; rfl,
                by rw [h2, List.append_assoc]; rfl,
                by simp [h3], by simpa using Nat.succ_le_succ h4⟩
        · simp only [Option.some.injEq, Prod.mk.injEq] at h
          exact ⟨[], [], by simp [h.1.symm], by simp [h.2.symm], rfl, by simp⟩

/-- C3: the greedy decode loop is fuel-bounded (`decodeLoop` recurses
structurally on fuel `decoder_max_length + 10`, so it always terminates, and
its three exits — end token selected, final allowed iteration reached, read
time index out of bounds — all return normally); whenever the engine's call
returns, at most `decoder_max_length + 10` steps recorded a confidence and
the decoder sequence, which started as the single start token, has at most
`decoder_max_length + 11` elements; and a step whose read time index
`len(decoder_seq) - 1` is out of bounds for the model output returns the
state reached so far as a `some` value — normal termination, not an error. -/
theorem decode_loop_bounded (env : Env) (encP : List (List Int)) (startIdx endIdx : Nat)
    (seq : List Nat) (confs : List ℚ)
    (h : decodeLoopCall env encP startIdx endIdx = some (seq, confs)) :
    (confs.length ≤ env.max_khm_len + 10 ∧ seq.length ≤ env.max_khm_len + 11) ∧
    (∀ (fuel : Nat) (sq : List Nat) (cf : List ℚ) (dec : List (List Int))
        (preds : List (List ℚ)),
      pad_sequences [sq.map Int.ofNat] (env.max_khm_len + 1) Align.post = some dec →
      env.model encP dec = some preds →
      preds.length ≤ sq.length - 1 →
      decodeLoop env encP endIdx (fuel + 1) sq cf = some (sq, cf)) := by
  constructor
  · rw [decodeLoopCall] at h
    obtain ⟨ts, cs, h1, h2, h3, h4⟩ := decodeLoop_some_ext env encP endIdx _ _ _ _ _ h
    subst h1
    subst h2
    simp only [List.length_append, List.length_cons, List.length_nil, List.nil_append]
    omega
  · intro fuel sq cf dec preds hpad hmod hle
    simp only [decodeLoop, hpad, hmod]
    rw [if_neg (by omega)]

/-- C3 witness: the loop bound evaluated on the concrete environment `envW`,
whose decode of one step returns sequence `[1, 2]` with one confidence. -/
theorem decode_loop_bounded_witness :
    ([(9:ℚ)/10]).length ≤ envW.max_khm_len + 10 ∧
      ([1, 2] : List Nat).length ≤ envW.max_khm_len + 11 :=
  (decode_loop_bounded envW [[3]] 1 2 [1, 2] [9/10] (by with_unfolding_all decide)).1

theorem collectChars_eq_takeWhile (env : Env) (endIdx : Nat) :
    ∀ l : List Nat,
      collectChars env endIdx l =
        (l.takeWhile (fun i => i != endIdx)).map (fun i => (env.khm_index_word i).getD [])
  | [] => rfl
  | idx :: rest => by
    by_cases h : idx = endIdx
    · simp [collectChars, List.takeWhile_cons, h]
    · simp [collectChars, List.takeWhile_cons, h, collectChars_eq_takeWhile env endIdx rest]

/-- C4: the decoded output string is built from the decoder sequence with its
initial start token skipped (`drop 1`), truncated at (and excluding) the
first occurrence of the end-token index (`takeWhile`), each remaining index
mapped through the target vocabulary with the empty string for missing
indices (`Option.getD []`, never an error), and the pieces concatenated with
no separator (`flatten`). -/
theorem decode_output_construction (env : Env) (endIdx : Nat) (seq : List Nat) :
    decodeSeq env endIdx seq =
      (((seq.drop 1).takeWhile (fun i => i != endIdx)).map
        (fun i => (env.khm_index_word i).getD [])).flatten := by
  rw [decodeSeq, collectChars_eq_takeWhile]

theorem round2_bounds {q : ℚ} (h0 : 0 ≤ q) (h1 : q ≤ 100) :
    0 ≤ round2 q ∧ round2 q ≤ 100 := by
  rw [round2]
  have hfloor : (0 : ℤ) ≤ round (q * 100) ∧ round (q * 100) ≤ 10000 := by
    rw [round_eq]
    constructor
    · apply Int.floor_nonneg.mpr
      nlinarith
    · have h2 : (q * 100 + 1 / 2 : ℚ) ≤ 10000 + 1 / 2 := by nlinarith
      have h3 := Int.floor_le_floor h2
      have h4 : (⌊(10000 + 1 / 2 : ℚ)⌋ : ℤ) = 10000 := by norm_num
      omega
  constructor
  · apply div_nonneg _ (by norm_num)
    exact_mod_cast hfloor.1
  · rw [div_le_iff₀ (by norm_num)]
    have : ((round (q * 100) : ℤ) : ℚ) ≤ ((10000 : ℤ) : ℚ) := by exact_mod_cast hfloor.2
    calc ((round (q * 100) : ℤ) : ℚ) ≤ ((10000 : ℤ) : ℚ) := this
      _ = 100 * 100 := by norm_num

theorem npMean_bounds {l : List ℚ} {c : ℚ} (hc : 0 ≤ c)
    (h : ∀ x ∈ l, 0 ≤ x ∧ x ≤ c) : 0 ≤ npMean l ∧ npMean l ≤ c := by
  rw [npMean]
  rcases eq_or_ne l [] with rfl | hne
  · simpa using hc
  · have hlen : (0 : ℚ) < (l.length : ℚ) := by
      have : l.length ≠ 0 := fun h0 => hne (List.length_eq_zero.mp h0)
      exact_mod_cast Nat.pos_of_ne_zero this
    constructor
    · exact div_nonneg (List.sum_nonneg (fun x hx => (h x hx).1)) hlen.le
    · rw [div_le_iff₀ hlen]
      calc l.sum ≤ l.length • c := List.sum_le_card_nsmul l c (fun x hx => (h x hx).2)
        _ = c * (l.length : ℚ) := by rw [nsmul_eq_mul]; ring

theorem getD_mem_of_lt {α : Type} {l : List α} {n : Nat} {d : α} (h : n < l.length) :
    l.getD n d ∈ l := by
  rw [List.getD_eq_getElem?_getD, List.getElem?_eq_getElem h]
  exact List.getElem_mem h

theorem decodeLoop_confs_bounded (env : Env)
    (hm : ∀ e d preds, env.model e d = some preds → ∀ row ∈ preds, ∀ p ∈ row, 0 ≤ p ∧ p ≤ 1)
    (encP : List (List Int)) (endIdx : Nat) :
    ∀ (fuel : Nat) (seq : List Nat) (confs : List ℚ) (seq2 : List Nat) (confs2 : List ℚ),
      (∀ x ∈ confs, 0 ≤ x ∧ x ≤ 1) →
      decodeLoop env encP endIdx fuel seq confs = some (seq2, confs2) →
      ∀ x ∈ confs2, 0 ≤ x ∧ x ≤ 1 := by
  intro fuel
  induction fuel with
  | zero =>
    intro seq confs seq2 confs2 hc h
    simp only [decodeLoop, Option.some.injEq, Prod.mk.injEq] at h
    rw [← h.2]
    exact hc
  | succ n ih =>
    intro seq confs seq2 confs2 hc h
    simp only [decodeLoop] at h
    split at h
    · exact Option.noConfusion h
    · next dec_padded hpad =>
      split at h
      · exact Option.noConfusion h
      · next preds hpreds =>
        split at h
        · next hlt =>
          split at h
          · exact Option.noConfusion h
          · next nextTok hargmax =>
            have hconf : 0 ≤ (preds.getD (seq.length - 1) []).getD nextTok 0 ∧
                (preds.getD (seq.length - 1) []).getD nextTok 0 ≤ 1 := by
              have hrow : preds.getD (seq.length - 1) [] ∈ preds := getD_mem_of_lt hlt
              by_cases hnt : nextTok < (preds.getD (seq.length - 1) []).length
              · exact hm encP dec_padded preds hpreds _ hrow _ (getD_mem_of_lt hnt)
              · rw [List.getD_eq_default _ _ (Nat.le_of_not_lt hnt)]
                norm_num
            have hext : ∀ x ∈ confs ++ [(preds.getD (seq.length - 1) []).getD nextTok 0],
                0 ≤ x ∧ x ≤ 1 := by
              intro x hx
              rcases List.mem_append.mp hx with hx | hx
              · exact hc x hx
              · rw [List.mem_singleton.mp hx]
                exact hconf
            split at h
            · simp only [Option.some.injEq, Prod.mk.injEq] at h
              rw [← h.2]
              exact hext
            · exact ih _ _ _ _ hext h
        · simp only [Option.some.injEq, Prod.mk.injEq] at h
          rw [← h.2]
          exact hc

theorem encPadded_eq (env : Env) (w : List Char) :
    pad_sequences ((encodePhase env (clean_text w false)).map (fun s => s.map Int.ofNat))
      env.max_eng_len Align.post = some (encPadded env w) := by
  rw [pad_sequences, pad_rows_post, encPadded, List.map_map]
  rfl

theorem predictBody_eq (env : Env) (w : List Char) {startIdx endIdx : Nat}
    (hs : env.khm_word_index '\t' = some startIdx)
    (he : env.khm_word_index '\n' = some endIdx) :
    predictBody env w (clean_text w false) =
      match decodeLoopCall env (encPadded env w) startIdx endIdx with
      | none => none
      | some (seq, confs) =>
        if (decodeSeq env endIdx seq).all pyIsSpace then some ('[' :: w ++ [']'], 0)
        else some (decodeSeq env endIdx seq,
          round2 (if confs.length ≠ 0 then npMean confs * 100 else 0)) := by
  simp only [predictBody, encPadded_eq, hs, he, decodeLoopCall]

theorem predict_eq_of_loop (env : Env) (w : List Char) {startIdx endIdx : Nat}
    (hclean : clean_text w false ≠ [])
    (hs : env.khm_word_index '\t' = some startIdx)
    (he : env.khm_word_index '\n' = some endIdx)
    {seq : List Nat} {confs : List ℚ}
    (hloop : decodeLoopCall env (encPadded env w) startIdx endIdx = some (seq, confs)) :
    predict_khmer_with_confidence env w =
      if (decodeSeq env endIdx seq).all pyIsSpace then ('[' :: w ++ [']'], 0)
      else (decodeSeq env endIdx seq,
        round2 (if confs.length ≠ 0 then npMean confs * 100 else 0)) := by
  simp only [predict_khmer_with_confidence]
  rw [if_neg (by simpa [List.length_eq_zero] using hclean), predictBody_eq env w hs he, hloop]
  by_cases hsp : (decodeSeq env endIdx seq).all pyIsSpace <;> simp [hsp]

theorem avg_formula_bounds {confs : List ℚ} (hconfs : ∀ x ∈ confs, 0 ≤ x ∧ x ≤ 1) :
    0 ≤ (if confs.length ≠ 0 then npMean confs * 100 else 0) ∧
      (if confs.length ≠ 0 then npMean confs * 100 else 0) ≤ 100 := by
  split
  · have hb := npMean_bounds (by norm_num : (0:ℚ) ≤ 1) hconfs
    constructor
    · nlinarith [hb.1]
    · nlinarith [hb.2]
  · norm_num

theorem predictBody_snd_bounds (env : Env)
    (hm : ∀ e d preds, env.model e d = some preds → ∀ row ∈ preds, ∀ p ∈ row, 0 ≤ p ∧ p ≤ 1)
    (w cleaned : List Char) (r : List Char × ℚ)
    (hb : predictBody env w cleaned = some r) : 0 ≤ r.2 ∧ r.2 ≤ 100 := by
  simp only [predictBody] at hb
  split at hb
  · exact Option.noConfusion hb
  · next enc_padded hpad =>
    split at hb
    · next startIdx endIdx hs he =>
      split at hb
      · exact Option.noConfusion hb
      · next seq confs hp =>
        have hconfs : ∀ x ∈ confs, 0 ≤ x ∧ x ≤ 1 :=
          decodeLoop_confs_bounded env hm enc_padded endIdx _ _ _ _ _ (by simp) hp
        have havg := avg_formula_bounds hconfs
        have hr2 := round2_bounds havg.1 havg.2
        split at hb
        · simp only [Option.some.injEq] at hb
          rw [← hb]
          norm_num
        · simp only [Option.some.injEq] at hb
          rw [← hb]
          exact hr2
    · next hboth =>
      simp only [Option.some.injEq] at hb
      rw [← hb]
      norm_num

theorem predict_snd_bounds (env : Env)
    (hm : ∀ e d preds, env.model e d = some preds → ∀ row ∈ preds, ∀ p ∈ row, 0 ≤ p ∧ p ≤ 1)
    (w : List Char) :
    0 ≤ (predict_khmer_with_confidence env w).2 ∧
      (predict_khmer_with_confidence env w).2 ≤ 100 := by
  simp only [predict_khmer_with_confidence]
  split
  · norm_num
  · rcases hb : predictBody env w (clean_text w false) with _ | r
    · simp only [hb]
      norm_num
    · simp only [hb]
      exact predictBody_snd_bounds env hm w _ r hb

theorem translate_avg_bounds (engine : List Char → List Char × ℚ)
    (heng : ∀ w, 0 ≤ (engine w).2 ∧ (engine w).2 ≤ 100) (text : List Char) :
    0 ≤ (translate_text engine text).average_confidence ∧
      (translate_text engine text).average_confidence ≤ 100 := by
  simp only [translate_text]
  split
  · norm_num
  · have hmem : ∀ x ∈ ((pyWords text).map (fun w => (w, (engine w).1, (engine w).2))).map
        (fun r => r.2.2), 0 ≤ x ∧ x ≤ 100 := by
      intro x hx
      simp only [List.map_map, List.mem_map, Function.comp] at hx
      obtain ⟨wd, hwd, rfl⟩ := hx
      exact heng wd
    have hb := npMean_bounds (by norm_num : (0:ℚ) ≤ 100) hmem
    simp only [npMean, List.length_map] at hb
    split
    · exact round2_bounds le_rfl (by norm_num)
    · rw [List.length_map]
      exact round2_bounds hb.1 hb.2

/-- C1: single-word decode is total — `predict_khmer_with_confidence` is a
plain function into `(string, confidence)`, with no error channel — and any
exception raised inside the engine's encode/decode `try` block (embedded as
`predictBody … = none`) is caught at the engine boundary and converted to the
bracket-wrapped echo of the original word with confidence 0.0; the service
wrapper `translate_single_word` returns the engine's value unchanged, so no
raw failure reaches the caller. -/
theorem single_word_decode_total (env : Env) (w : List Char)
    (hclean : clean_text w false ≠ [])
    (hfail : predictBody env w (clean_text w false) = none) :
    predict_khmer_with_confidence env w = ('[' :: w ++ [']'], 0) ∧
    translate_single_word env w = predict_khmer_with_confidence env w := by
  refine ⟨?_, rfl⟩
  simp only [predict_khmer_with_confidence]
  rw [if_neg (by simpa [List.length_eq_zero] using hclean), hfail]

/-- C1 witness: with a model whose forward pass always raises, decoding "a"
returns the bracket-wrapped echo with confidence 0.0. -/
theorem single_word_decode_total_witness :
    predict_khmer_with_confidence envFailModel ['a'] = ('[' :: ['a'] ++ [']'], 0) ∧
    translate_single_word envFailModel ['a'] =
      predict_khmer_with_confidence envFailModel ['a'] :=
  single_word_decode_total envFailModel ['a'] (by decide) (by with_unfolding_all decide)

/-- C2 counterexample: the claim quantifies over every input word, but a word
that cleans to the empty string (here "123") short-circuits to `("", 0.0)`
before the start/end-token check, so even with a target vocabulary lacking
both control tokens the decode returns `("", 0.0)` and not `("[123]", 0.0)`. -/
theorem missing_token_fallback_cex :
    envNoTok.khm_word_index '\t' = none ∧
    envNoTok.khm_word_index '\n' = none ∧
    predict_khmer_with_confidence envNoTok ['1', '2', '3'] = ([], 0) ∧
    (([], 0) : List Char × ℚ) ≠ ('[' :: ['1', '2', '3'] ++ [']'], 0) := by
  refine ⟨rfl, rfl, by with_unfolding_all decide, by decide⟩

/-- C2 (amended): for every input word whose cleaned form is non-empty, if
the target vocabulary lacks the start-token index or the end-token index,
single-word decode returns exactly `("[" + original_word + "]", 0.0)` as a
returned value, not a raised error.  (Words that clean to empty return
`("", 0.0)` before the token check is reached.) -/
theorem missing_token_fallback (env : Env) (w : List Char)
    (hclean : clean_text w false ≠ [])
    (h : env.khm_word_index '\t' = none ∨ env.khm_word_index '\n' = none) :
    predict_khmer_with_confidence env w = ('[' :: w ++ [']'], 0) := by
  simp only [predict_khmer_with_confidence]
  rw [if_neg (by simpa [List.length_eq_zero] using hclean)]
  have hb : predictBody env w (clean_text w false) = some ('[' :: w ++ [']'], 0) := by
    simp only [predictBody, encPadded_eq]
    rcases h with h | h
    · rw [h]
    · rw [h]
      cases env.khm_word_index '\t' <;> rfl
  rw [hb]

/-- C2 witness: the amended theorem at "a" with a token-free target
vocabulary. -/
theorem missing_token_fallback_witness :
    predict_khmer_with_confidence envNoTok ['a'] = ('[' :: ['a'] ++ [']'], 0) :=
  missing_token_fallback envNoTok ['a'] (by decide) (Or.inl rfl)

/-- C9: a word whose normalization (lowercase, strip, drop characters outside
`[a-z]` and whitespace) is empty decodes to exactly `("", 0.0)`; the theorem
holds for every environment, hence for every model, so the result is
independent of the model — no forward pass is performed. -/
theorem empty_clean_short_circuit (env : Env) (w : List Char)
    (h : clean_text w false = []) :
    predict_khmer_with_confidence env w = ([], 0) := by
  simp only [predict_khmer_with_confidence]
  rw [if_pos (by simp [h])]

/-- C9 witness: "19%" cleans to the empty string and decodes to `("", 0.0)`. -/
theorem empty_clean_short_circuit_witness :
    predict_khmer_with_confidence envW ['1', '9', '%'] = ([], 0) :=
  empty_clean_short_circuit envW ['1', '9', '%'] (by decide)

/-- C8: a text that splits into zero words (empty or whitespace-only) yields
the empty result with confidence 0.0, word count 0 and an empty per-word
list; the theorem holds for every engine function, so the engine is never
consulted. -/
theorem translate_empty_input (engine : List Char → List Char × ℚ) (text : List Char)
    (h : pyWords text = []) :
    translate_text engine text =
      { input_text := text, translation := [], word_translations := [],
        average_confidence := 0, word_count := 0 } := by
  simp [translate_text, h]

/-- C8 witness: a single space splits into zero words. -/
theorem translate_empty_input_witness :
    translate_text (fun w => (w, 0)) [' '] =
      { input_text := [' '], translation := [], word_translations := [],
        average_confidence := 0, word_count := 0 } :=
  translate_empty_input (fun w => (w, 0)) [' '] (by decide)

/-- C7: for every text with at least one whitespace-separated word, the final
translation is the concatenation of the per-word decode outputs in input
order with no separator, and the average confidence is the arithmetic mean of
the per-word confidences rounded to 2 decimals. -/
theorem translate_concat_and_mean (env : Env) (text : List Char)
    (h : pyWords text ≠ []) :
    (translate_text (translate_single_word env) text).translation =
      ((pyWords text).map (fun w => (translate_single_word env w).1)).flatten ∧
    (translate_text (translate_single_word env) text).average_confidence =
      round2 (npMean ((pyWords text).map (fun w => (translate_single_word env w).2))) := by
  have hne : (pyWords text).isEmpty = false := by
    rcases hw : pyWords text with _ | _
    · exact absurd hw h
    · rfl
  simp only [translate_text, hne, Bool.false_eq_true, if_false, List.map_map]
  constructor
  · rfl
  · have hres : ((pyWords text).map (fun w => (w, (translate_single_word env w).1,
        (translate_single_word env w).2))).isEmpty = false := by
      rw [List.isEmpty_eq_false_iff_exists_mem] at hne ⊢
      obtain ⟨x, hx⟩ := hne
      exact ⟨_, List.mem_map_of_mem _ hx⟩
    simp only [hres, Bool.false_eq_true, if_false, npMean, List.map_map, List.length_map]
    rfl

/-- C7 witness: the no-separator and mean laws evaluated on " a b" in the
concrete environment `envX`. -/
theorem translate_concat_and_mean_witness :
    (translate_text (translate_single_word envX) [' ', 'a', ' ', 'b']).translation =
      ((pyWords [' ', 'a', ' ', 'b']).map
        (fun w => (translate_single_word envX w).1)).flatten ∧
    (translate_text (translate_single_word envX) [' ', 'a', ' ', 'b']).average_confidence =
      round2 (npMean ((pyWords [' ', 'a', ' ', 'b']).map
        (fun w => (translate_single_word envX w).2))) :=
  translate_concat_and_mean envX [' ', 'a', ' ', 'b'] (by decide)

theorem decodeLoop_confs_nil {env : Env} {encP : List (List Int)} {startIdx endIdx : Nat}
    {seq : List Nat}
    (h : decodeLoopCall env encP startIdx endIdx = some (seq, [])) :
    seq = [startIdx] := by
  rw [decodeLoopCall] at h
  obtain ⟨ts, cs, h1, h2, h3, h4⟩ := decodeLoop_some_ext env encP endIdx _ _ _ _ _ h
  have hcs : cs = [] := by
    have := h2.symm
    simpa using this
  subst hcs
  have hts : ts = [] := List.length_eq_zero.mp (by rw [h3]; rfl)
  subst hts
  simpa using h1

/-- C5 counterexample: in `envW` the decode of "a" takes one step whose
selected probability is `9/10`, so the claimed formula gives
`round2 (mean × 100) = 90`; but the decoded string is empty, the
empty-result fallback fires, and the confidence actually returned is `0`. -/
theorem confidence_formula_cex :
    decodeLoopCall envW (encPadded envW ['a']) 1 2 = some ([1, 2], [9/10]) ∧
    round2 (npMean [(9:ℚ)/10] * 100) = 90 ∧
    (predict_khmer_with_confidence envW ['a']).2 = 0 ∧
    (predict_khmer_with_confidence envW ['a']).2 ≠ round2 (npMean [(9:ℚ)/10] * 100) := by
  refine ⟨by with_unfolding_all decide, by with_unfolding_all decide,
    by with_unfolding_all decide, by with_unfolding_all decide⟩

/-- C5 (amended): whenever the greedy loop returns and the decoded string is
not empty or whitespace-only, the single-word confidence equals the
arithmetic mean of the per-step selected-token probabilities multiplied by
100 and rounded to 2 decimal places (when the empty-result fallback fires the
confidence is forced to 0.0 instead — the unconditional equality of the
original claim fails there); the confidence equals 0.0 when zero decode steps
were taken; and under the precondition that every model probability lies in
[0, 1], both the single-word confidence and the orchestrator's
average_confidence lie in [0, 100]. -/
theorem confidence_spec (env : Env) (w : List Char)
    (hm : ∀ e d preds, env.model e d = some preds → ∀ row ∈ preds, ∀ p ∈ row, 0 ≤ p ∧ p ≤ 1) :
    (∀ startIdx endIdx seq confs,
        clean_text w false ≠ [] →
        env.khm_word_index '\t' = some startIdx →
        env.khm_word_index '\n' = some endIdx →
        decodeLoopCall env (encPadded env w) startIdx endIdx = some (seq, confs) →
        ((decodeSeq env endIdx seq).all pyIsSpace = false →
            predict_khmer_with_confidence env w =
              (decodeSeq env endIdx seq, round2 (npMean confs * 100))) ∧
          (confs = [] → (predict_khmer_with_confidence env w).2 = 0)) ∧
    0 ≤ (predict_khmer_with_confidence env w).2 ∧
    (predict_khmer_with_confidence env w).2 ≤ 100 ∧
    ∀ text, 0 ≤ (translate_text (translate_single_word env) text).average_confidence ∧
      (translate_text (translate_single_word env) text).average_confidence ≤ 100 := by
  refine ⟨?_, (predict_snd_bounds env hm w).1, (predict_snd_bounds env hm w).2,
    fun text => translate_avg_bounds (translate_single_word env)
      (fun wd => predict_snd_bounds env hm wd) text⟩
  intro startIdx endIdx seq confs hclean hs he hloop
  constructor
  · intro hsp
    rw [predict_eq_of_loop env w hclean hs he hloop, if_neg (by simp [hsp])]
    rcases eq_or_ne confs [] with rfl | hnz
    · exfalso
      have hseq : seq = [startIdx] := decodeLoop_confs_nil hloop
      rw [hseq] at hsp
      simp [decodeSeq, collectChars] at hsp
    · rw [if_pos (by simpa [List.length_eq_zero] using hnz)]
  · intro hcz
    subst hcz
    have hseq : seq = [startIdx] := decodeLoop_confs_nil hloop
    rw [predict_eq_of_loop env w hclean hs he hloop, hseq]
    simp [decodeSeq, collectChars]

/-- C5 witness: the confidence bounds evaluated on `envX`, whose model always
emits probabilities in [0, 1]. -/
theorem confidence_spec_witness :
    0 ≤ (predict_khmer_with_confidence envX ['a']).2 ∧
      (predict_khmer_with_confidence envX ['a']).2 ≤ 100 := by
  have hm : ∀ e d preds, envX.model e d = some preds →
      ∀ row ∈ preds, ∀ p ∈ row, 0 ≤ p ∧ p ≤ 1 := by
    intro e d preds hp row hrow p hpr
    have hpe : preds = [[0, 0, 1/5, 4/5], [0, 0, 3/5, 1/5]] := by
      simpa [envX] using hp.symm
    subst hpe
    fin_cases hrow <;> fin_cases hpr <;> norm_num
  have h := confidence_spec envX ['a'] hm
  exact ⟨h.2.1, h.2.2.1⟩
